import Mathlib

/-!
Verification of the openPOWERLINK APC/PPC2100 firmware update tool
(`apps/firmware_update/src/main.c`) against its natural-language
specification.

The C program is embedded shallowly: each C function becomes a pure Lean
function, external library calls (`oplk_serviceWriteFileChunk`,
`oplk_serviceGetFileChunkSize`, `system_init`, ...) become explicit
parameters (an oracle for the chunk-write results, scalar return codes for
the one-shot calls), and heap/file effects become explicit event traces.
Bytes are modelled as `Nat`; buffer lengths stay far below `2^32`, so no
machine-integer wraparound is observable in the modelled quantities.
-/

namespace FwUpdate

/-- Subset of the openPOWERLINK `tOplkError` codes visible to this program:
`kErrorOk`, `kErrorNoResource`, and an opaque constructor for every other
code the external library may return. -/
inductive TOplkError where
  | kErrorOk
  | kErrorNoResource
  | kErrorOther (code : Nat)
deriving DecidableEq, Repr

/-- Mirror of `tOplkApiFileChunkDesc` as used by `writeImageToKernel`:
first/last flags, byte offset and chunk length. -/
structure ChunkDesc where
  fFirst : Bool
  fLast : Bool
  offset : Nat
  length : Nat
deriving DecidableEq, Repr

/-- One call to `oplk_serviceWriteFileChunk`: the descriptor passed and the
bytes that `memcpy` placed in the chunk buffer for this call. -/
structure ChunkCall where
  desc : ChunkDesc
  bytes : List Nat
deriving DecidableEq, Repr

/-- The `while (length_p)` loop of `writeImageToKernel` (main.c lines
405-434).  `oracle i` is the `tOplkError` returned by the i-th
`oplk_serviceWriteFileChunk` call of this transfer.  The loop state is the
remaining image bytes, the running `desc.offset`, the `desc.fFirst` flag and
the call index; `fuel` bounds the number of iterations (one byte is consumed
per iteration at minimum when `0 < C`, so `fuel = image.length` suffices).
Returns the list of chunk-write calls performed and the final `ret`. -/
def writeLoop (oracle : Nat → TOplkError) (C : Nat) :
    Nat → List Nat → Nat → Bool → Nat → List ChunkCall × TOplkError
  | _, [], _, _, _ => ([], .kErrorOk)
  | 0, _ :: _, _, _, _ => ([], .kErrorOk)
  | fuel + 1, b :: bs, offset, fFirst, idx =>
    let image := b :: bs
    let len := if image.length < C then image.length else C
    let fLast := decide (image.length < C)
    let call : ChunkCall := ⟨⟨fFirst, fLast, offset, len⟩, image.take len⟩
    match oracle idx with
    | .kErrorOk =>
      let rest := writeLoop oracle C fuel (image.drop len) (offset + len) false (idx + 1)
      (call :: rest.1, rest.2)
    | e => ([call], e)

/-- `writeImageToKernel` (main.c lines 381-441).  `chunkSize` is the value
returned by `oplk_serviceGetFileChunkSize`, `mallocOk` tells whether the
`malloc(chunkSize)` for the chunk buffer succeeds, `image` is the buffer
`pImage_p[0 .. length_p)`.  Returns the chunk-write calls performed and the
function result. -/
def writeImageToKernel (oracle : Nat → TOplkError) (chunkSize : Nat)
    (mallocOk : Bool) (image : List Nat) : List ChunkCall × TOplkError :=
  if chunkSize = 0 then ([], .kErrorNoResource)
  else if mallocOk = false then ([], .kErrorNoResource)
  else writeLoop oracle chunkSize image.length image 0 true 0

/-- `FIRMWARE_HEADER_SIZE` (main.c line 77). -/
def FIRMWARE_HEADER_SIZE : Nat := 32

/-- `invalidateImage` (main.c lines 293-303): writes a 32-byte header of
`0xFF` bytes through `writeImageToKernel`. -/
def invalidateImage (oracle : Nat → TOplkError) (chunkSize : Nat)
    (mallocOk : Bool) : List ChunkCall × TOplkError :=
  writeImageToKernel oracle chunkSize mallocOk
    (List.replicate FIRMWARE_HEADER_SIZE 0xFF)

/-- Number of loop iterations of `writeImageToKernel` on a buffer of length
`L` with chunk size `C`, i.e. `⌈L / C⌉`. -/
def chunkCount (C L : Nat) : Nat := (L + C - 1) / C

/-- Offsets of consecutive chunk calls: starting from `off`, each call
carries the running total of the lengths of the calls before it. -/
def offsetsFrom : Nat → List ChunkCall → Prop
  | _, [] => True
  | off, c :: cs => c.desc.offset = off ∧ offsetsFrom (off + c.desc.length) cs

instance instDecOffsetsFrom : ∀ off cs, Decidable (offsetsFrom off cs)
  | _, [] => .isTrue trivial
  | off, c :: cs =>
    have : Decidable (offsetsFrom (off + c.desc.length) cs) :=
      instDecOffsetsFrom _ cs
    instDecidableAnd

/-- Length of the segment sent when `L` bytes remain: `length_p` if
`length_p < chunkSize`, else `chunkSize` (main.c lines 407-413). -/
def segLen (C L : Nat) : Nat := if L < C then L else C

theorem writeLoop_nil (oracle : Nat → TOplkError) (C fuel offset : Nat) (fFirst : Bool)
    (idx : Nat) : writeLoop oracle C fuel [] offset fFirst idx = ([], .kErrorOk) := by
  cases fuel <;> rfl

theorem writeLoop_cons_ok (oracle : Nat → TOplkError) (C fuel : Nat) (b : Nat)
    (bs : List Nat) (offset : Nat) (fFirst : Bool) (idx : Nat)
    (h : oracle idx = .kErrorOk) :
    writeLoop oracle C (fuel + 1) (b :: bs) offset fFirst idx =
      ((⟨⟨fFirst, decide ((b :: bs).length < C), offset, segLen C (b :: bs).length⟩,
          (b :: bs).take (segLen C (b :: bs).length)⟩ : ChunkCall) ::
         (writeLoop oracle C fuel ((b :: bs).drop (segLen C (b :: bs).length))
           (offset + segLen C (b :: bs).length) false (idx + 1)).1,
       (writeLoop oracle C fuel ((b :: bs).drop (segLen C (b :: bs).length))
           (offset + segLen C (b :: bs).length) false (idx + 1)).2) := by
  rw [writeLoop, h]
  simp [segLen]

theorem writeLoop_cons_fail (oracle : Nat → TOplkError) (C fuel : Nat) (b : Nat)
    (bs : List Nat) (offset : Nat) (fFirst : Bool) (idx : Nat)
    (he : oracle idx ≠ .kErrorOk) :
    writeLoop oracle C (fuel + 1) (b :: bs) offset fFirst idx =
      ([(⟨⟨fFirst, decide ((b :: bs).length < C), offset, segLen C (b :: bs).length⟩,
          (b :: bs).take (segLen C (b :: bs).length)⟩ : ChunkCall)], oracle idx) := by
  rw [writeLoop]
  cases ho : oracle idx with
  | kErrorOk => exact absurd ho he
  | kErrorNoResource => simp [segLen]
  | kErrorOther code => simp [segLen]

theorem segLen_pos (C L : Nat) (hC : 0 < C) (hL : 0 < L) : 0 < segLen C L := by
  unfold segLen
  split <;> omega

theorem segLen_le_C (C L : Nat) : segLen C L ≤ C := by
  unfold segLen
  split <;> omega

theorem writeLoop_ok_spec (oracle : Nat → TOplkError) (C : Nat) (hC : 0 < C)
    (hok : ∀ i, oracle i = .kErrorOk) :
    ∀ (fuel : Nat) (image : List Nat) (offset : Nat) (fFirst : Bool) (idx : Nat),
      image.length ≤ fuel →
      (∀ c ∈ (writeLoop oracle C fuel image offset fFirst idx).1,
          1 ≤ c.desc.length ∧ c.desc.length ≤ C ∧ c.bytes.length = c.desc.length) ∧
      offsetsFrom offset (writeLoop oracle C fuel image offset fFirst idx).1 ∧
      ((writeLoop oracle C fuel image offset fFirst idx).1.map ChunkCall.bytes).flatten
        = image ∧
      (writeLoop oracle C fuel image offset fFirst idx).2 = .kErrorOk := by
  intro fuel
  induction fuel with
  | zero =>
    intro image offset fFirst idx hle
    match image with
    | [] => simp [writeLoop_nil, offsetsFrom]
    | b :: bs => simp at hle
  | succ n ih =>
    intro image offset fFirst idx hle
    match image with
    | [] => simp [writeLoop_nil, offsetsFrom]
    | b :: bs =>
      rw [writeLoop_cons_ok oracle C n b bs offset fFirst idx (hok idx)]
      have hlen : 0 < (b :: bs).length := by simp
      have hseg : 0 < segLen C (b :: bs).length := segLen_pos _ _ hC hlen
      have hsegle : segLen C (b :: bs).length ≤ (b :: bs).length := by
        unfold segLen
        split <;> omega
      have hdrop : ((b :: bs).drop (segLen C (b :: bs).length)).length ≤ n := by
        simp only [List.length_drop]
        omega
      obtain ⟨hbnd, hoff, hjoin, hret⟩ :=
        ih ((b :: bs).drop (segLen C (b :: bs).length))
          (offset + segLen C (b :: bs).length) false (idx + 1) hdrop
      refine ⟨?_, ?_, ?_, hret⟩
      · intro c hc
        rcases List.mem_cons.mp hc with hc | hc
        · subst hc
          refine ⟨hseg, segLen_le_C _ _, ?_⟩
          simp only [List.length_take]
          omega
        · exact hbnd c hc
      · exact ⟨rfl, hoff⟩
      · simp only [List.map_cons, List.flatten_cons]
        rw [hjoin]
        exact List.take_append_drop _ _


theorem writeImageToKernel_run (oracle : Nat → TOplkError) (C : Nat) (image : List Nat)
    (hC : C ≠ 0) :
    writeImageToKernel oracle C true image
      = writeLoop oracle C image.length image 0 true 0 := by
  simp [writeImageToKernel, hC]

theorem chunkCount_eq_zero (C : Nat) (hC : 0 < C) : chunkCount C 0 = 0 := by
  unfold chunkCount
  apply Nat.div_eq_of_lt
  omega

theorem chunkCount_step (C L : Nat) (hC : 0 < C) (hL : 0 < L) :
    chunkCount C L = chunkCount C (L - segLen C L) + 1 := by
  unfold chunkCount segLen
  by_cases h : L < C
  · rw [if_pos h, Nat.sub_self L]
    have h3 : L + C - 1 = (L - 1) + C := by omega
    rw [h3, Nat.add_div_right _ hC]
    have h4 : (L - 1) / C = 0 := Nat.div_eq_of_lt (by omega)
    have h5 : (0 + C - 1) / C = 0 := Nat.div_eq_of_lt (by omega)
    omega
  · rw [if_neg h]
    have h3 : L + C - 1 = (L - 1) + C := by omega
    have h6 : L - C + C - 1 = L - 1 := by omega
    rw [h3, Nat.add_div_right _ hC, h6]

theorem writeLoop_ok_length (oracle : Nat → TOplkError) (C : Nat) (hC : 0 < C)
    (hok : ∀ i, oracle i = .kErrorOk) :
    ∀ (fuel : Nat) (image : List Nat) (offset : Nat) (fFirst : Bool) (idx : Nat),
      image.length ≤ fuel →
      (writeLoop oracle C fuel image offset fFirst idx).1.length
        = chunkCount C image.length := by
  intro fuel
  induction fuel with
  | zero =>
    intro image offset fFirst idx hle
    match image with
    | [] => simp [writeLoop_nil, chunkCount_eq_zero C hC]
    | b :: bs => simp at hle
  | succ n ih =>
    intro image offset fFirst idx hle
    match image with
    | [] => simp [writeLoop_nil, chunkCount_eq_zero C hC]
    | b :: bs =>
      rw [writeLoop_cons_ok oracle C n b bs offset fFirst idx (hok idx)]
      have hlen : 0 < (b :: bs).length := by simp
      have hseg : 0 < segLen C (b :: bs).length := segLen_pos _ _ hC hlen
      have hsegle : segLen C (b :: bs).length ≤ (b :: bs).length := by
        unfold segLen
        split <;> omega
      have hdrop : ((b :: bs).drop (segLen C (b :: bs).length)).length ≤ n := by
        simp only [List.length_drop]
        omega
      have hih := ih ((b :: bs).drop (segLen C (b :: bs).length))
        (offset + segLen C (b :: bs).length) false (idx + 1) hdrop
      have hstep := chunkCount_step C (b :: bs).length hC hlen
      simp only [List.length_cons, List.length_drop] at hih hstep ⊢
      omega

theorem not_dvd_of_lt (C L : Nat) (hL : 0 < L) (h : L < C) : ¬ (C ∣ L) :=
  fun hdvd => absurd (Nat.le_of_dvd hL hdvd) (by omega)

theorem writeLoop_flags (oracle : Nat → TOplkError) (C : Nat) (hC : 0 < C)
    (hok : ∀ i, oracle i = .kErrorOk) :
    ∀ (fuel : Nat) (image : List Nat) (offset : Nat) (fFirst : Bool) (idx : Nat),
      image.length ≤ fuel → image ≠ [] →
      ((writeLoop oracle C fuel image offset fFirst idx).1.map
          (fun c => c.desc.fFirst)
        = fFirst :: List.replicate
            ((writeLoop oracle C fuel image offset fFirst idx).1.length - 1) false) ∧
      ((writeLoop oracle C fuel image offset fFirst idx).1.map
          (fun c => c.desc.fLast)
        = List.replicate
            ((writeLoop oracle C fuel image offset fFirst idx).1.length - 1) false
          ++ [decide (¬ (C ∣ image.length))]) := by
  intro fuel
  induction fuel with
  | zero =>
    intro image offset fFirst idx hle hne
    match image with
    | [] => exact absurd rfl hne
    | b :: bs => simp at hle
  | succ n ih =>
    intro image offset fFirst idx hle hne
    match image with
    | [] => exact absurd rfl hne
    | b :: bs =>
      rw [writeLoop_cons_ok oracle C n b bs offset fFirst idx (hok idx)]
      by_cases hL : (b :: bs).length < C
      · have hseg : segLen C (b :: bs).length = (b :: bs).length := by
          unfold segLen
          rw [if_pos hL]
        have hnd : ¬ (C ∣ (b :: bs).length) := not_dvd_of_lt C _ (by simp) hL
        have hL2 : bs.length + 1 < C := by simpa using hL
        have hnd2 : ¬ (C ∣ bs.length + 1) := by simpa using hnd
        rw [hseg, List.drop_length, writeLoop_nil]
        constructor
        · simp
        · simp [hL2, hnd2]
      · have hseg : segLen C (b :: bs).length = C := by
          unfold segLen
          rw [if_neg hL]
        rw [hseg]
        by_cases hE : (b :: bs).drop C = []
        · have hLC : (b :: bs).length = C := by
            have hlen : ((b :: bs).drop C).length = (b :: bs).length - C :=
              List.length_drop C (b :: bs)
            rw [hE] at hlen
            simp only [List.length_nil, List.length_cons] at hlen hL ⊢
            omega
          have hdvd : C ∣ (b :: bs).length := by
            rw [hLC]
          have hLf : ¬ (bs.length + 1 < C) := by simpa using hL
          have hdvd2 : C ∣ bs.length + 1 := by simpa using hdvd
          rw [hE, writeLoop_nil]
          constructor
          · simp
          · simp [hLf, hdvd2]
        · have hCL : C < (b :: bs).length := by
            have hlen := List.length_drop C (b :: bs)
            have hp : 0 < ((b :: bs).drop C).length := List.length_pos.mpr hE
            omega
          have hdrop : ((b :: bs).drop C).length ≤ n := by
            simp only [List.length_drop]
            omega
          obtain ⟨ihF, ihL⟩ := ih ((b :: bs).drop C) (offset + C) false (idx + 1) hdrop hE
          have hnz : (writeLoop oracle C n ((b :: bs).drop C) (offset + C) false
              (idx + 1)).1 ≠ [] := by
            intro hE2
            rw [hE2] at ihF
            simp at ihF
          obtain ⟨m, hm⟩ : ∃ m, (writeLoop oracle C n ((b :: bs).drop C) (offset + C) false
              (idx + 1)).1.length = m + 1 := by
            have hpos := List.length_pos.mpr hnz
            exact ⟨(writeLoop oracle C n ((b :: bs).drop C) (offset + C) false
              (idx + 1)).1.length - 1, by omega⟩
          have hdviff : (C ∣ ((b :: bs).drop C).length) ↔ (C ∣ (b :: bs).length) := by
            rw [List.length_drop]
            constructor
            · intro hd
              have h2 := Nat.dvd_add hd (dvd_refl C)
              rwa [Nat.sub_add_cancel (Nat.le_of_lt hCL)] at h2
            · intro hd
              exact Nat.dvd_sub' hd (dvd_refl C)
          constructor
          · simp only [List.map_cons, List.length_cons]
            rw [ihF, hm]
            simp [List.replicate_succ]
          · simp only [List.map_cons, List.length_cons]
            rw [ihL, hm]
            have hdec : decide (¬ (C ∣ ((b :: bs).drop C).length))
                = decide (¬ (C ∣ (b :: bs).length)) := by
              exact decide_eq_decide.mpr (not_congr hdviff)
            rw [hdec]
            have hLf : ¬ (bs.length + 1 < C) := by simpa using hL
            simp [hLf, List.replicate_succ]

theorem writeLoop_fail_spec (oracle : Nat → TOplkError) (C : Nat) (hC : 0 < C) :
    ∀ (k fuel : Nat) (image : List Nat) (offset : Nat) (fFirst : Bool) (idx : Nat),
      image.length ≤ fuel →
      (∀ j, j < k → oracle (idx + j) = .kErrorOk) →
      oracle (idx + k) ≠ .kErrorOk →
      k < chunkCount C image.length →
      (writeLoop oracle C fuel image offset fFirst idx).1.length = k + 1 ∧
      (writeLoop oracle C fuel image offset fFirst idx).2 = oracle (idx + k) := by
  intro k
  induction k with
  | zero =>
    intro fuel image offset fFirst idx hle hpre hfail hcnt
    match image with
    | [] =>
      rw [List.length_nil, chunkCount_eq_zero C hC] at hcnt
      omega
    | b :: bs =>
      match fuel with
      | 0 => simp at hle
      | n + 1 =>
        rw [writeLoop_cons_fail oracle C n b bs offset fFirst idx (by simpa using hfail)]
        simp
  | succ m ih =>
    intro fuel image offset fFirst idx hle hpre hfail hcnt
    match image with
    | [] =>
      rw [List.length_nil, chunkCount_eq_zero C hC] at hcnt
      omega
    | b :: bs =>
      match fuel with
      | 0 => simp at hle
      | n + 1 =>
        have h0 : oracle idx = .kErrorOk := by simpa using hpre 0 (by omega)
        rw [writeLoop_cons_ok oracle C n b bs offset fFirst idx h0]
        have hlen : 0 < (b :: bs).length := by simp
        have hseg : 0 < segLen C (b :: bs).length := segLen_pos _ _ hC hlen
        have hsegle : segLen C (b :: bs).length ≤ (b :: bs).length := by
          unfold segLen
          split <;> omega
        have hdrop : ((b :: bs).drop (segLen C (b :: bs).length)).length ≤ n := by
          simp only [List.length_drop]
          omega
        have hpre' : ∀ j, j < m → oracle (idx + 1 + j) = .kErrorOk := by
          intro j hj
          have := hpre (j + 1) (by omega)
          have he : idx + (j + 1) = idx + 1 + j := by omega
          rwa [he] at this
        have hfail' : oracle (idx + 1 + m) ≠ .kErrorOk := by
          have he : idx + 1 + m = idx + (m + 1) := by omega
          rw [he]
          exact hfail
        have hcnt' : m < chunkCount C ((b :: bs).drop (segLen C (b :: bs).length)).length := by
          have hstep := chunkCount_step C (b :: bs).length hC hlen
          simp only [List.length_drop]
          omega
        obtain ⟨hl, hr⟩ := ih n ((b :: bs).drop (segLen C (b :: bs).length))
          (offset + segLen C (b :: bs).length) false (idx + 1) hdrop hpre' hfail' hcnt'
        constructor
        · simp only [List.length_cons] at hl ⊢
          omega
        · rw [hr]
          have he : idx + 1 + m = idx + (m + 1) := by omega
          rw [he]

/-- C1: for every buffer of length `L > 0` and reported chunk size `C > 0`
(chunk buffer allocation succeeding and every chunk-write call reporting
success), `writeImageToKernel` splits the buffer into consecutive segments
each of length between `1` and `C`, each call carries an offset equal to the
sum of the lengths of all previous segments starting at `0`, and the
concatenation of the delivered segment contents equals the input buffer. -/
theorem chunk_transfer_correct (oracle : Nat → TOplkError) (C : Nat) (image : List Nat)
    (hC : 0 < C) (_hL : 0 < image.length)
    (hok : ∀ i, oracle i = TOplkError.kErrorOk) :
    (∀ c ∈ (writeImageToKernel oracle C true image).1,
        1 ≤ c.desc.length ∧ c.desc.length ≤ C ∧ c.bytes.length = c.desc.length) ∧
    offsetsFrom 0 (writeImageToKernel oracle C true image).1 ∧
    ((writeImageToKernel oracle C true image).1.map ChunkCall.bytes).flatten = image := by
  rw [writeImageToKernel_run oracle C image (by omega)]
  obtain ⟨h1, h2, h3, _⟩ :=
    writeLoop_ok_spec oracle C hC hok image.length image 0 true 0 (Nat.le_refl _)
  exact ⟨h1, h2, h3⟩

/-- Witness for C1: a 3-byte buffer transferred with chunk size 2. -/
theorem chunk_transfer_correct_witness :
    0 < 2 ∧ 0 < ([1, 2, 3] : List Nat).length ∧
    offsetsFrom 0 (writeImageToKernel (fun _ => TOplkError.kErrorOk) 2 true [1, 2, 3]).1 ∧
    ((writeImageToKernel (fun _ => TOplkError.kErrorOk) 2 true [1, 2, 3]).1.map
        ChunkCall.bytes).flatten = [1, 2, 3] :=
  ⟨by decide, by decide,
   (chunk_transfer_correct (fun _ => TOplkError.kErrorOk) 2 [1, 2, 3] (by decide) (by decide)
      (fun i => rfl)).2⟩

/-- C2 counterexample: with chunk size `C = 1` and buffer `[0]` of length
`L = 1` (so `C` divides `L`, every call successful), the transfer consists of
one — hence final — chunk-write call and its last flag is NOT set: the code
sets `fLast` only when `length_p < chunkSize` (main.c line 407-411), which
never holds when the remaining length equals the chunk size, so the claim
that the final call carries the last flag is false. -/
theorem final_call_not_marked_last :
    ((writeImageToKernel (fun _ => TOplkError.kErrorOk) 1 true [0]).1.map
        (fun c => c.desc.fLast)) = [false] := by decide

/-- C2 amended: the first chunk-write call has the first flag set and no
later call does; a call has the last flag set exactly when its segment is
shorter than the chunk size `C`, hence the final call is marked last iff `C`
does not divide the buffer length (in particular, when `C` divides `L` no
call is marked last). -/
theorem first_last_flags (oracle : Nat → TOplkError) (C : Nat) (image : List Nat)
    (hC : 0 < C) (hL : image ≠ [])
    (hok : ∀ i, oracle i = TOplkError.kErrorOk) :
    ((writeImageToKernel oracle C true image).1.map (fun c => c.desc.fFirst)
       = true :: List.replicate
           ((writeImageToKernel oracle C true image).1.length - 1) false) ∧
    ((writeImageToKernel oracle C true image).1.map (fun c => c.desc.fLast)
       = List.replicate ((writeImageToKernel oracle C true image).1.length - 1) false
         ++ [decide (¬ (C ∣ image.length))]) := by
  rw [writeImageToKernel_run oracle C image (by omega)]
  exact writeLoop_flags oracle C hC hok image.length image 0 true 0 (Nat.le_refl _) hL

/-- Witness for the amended C2: a 3-byte buffer with chunk size 2 (two calls,
first marked first, second — shorter than 2 — marked last). -/
theorem first_last_flags_witness :
    ((writeImageToKernel (fun _ => TOplkError.kErrorOk) 2 true [5, 6, 7]).1.map
        (fun c => c.desc.fFirst)
      = true :: List.replicate
          ((writeImageToKernel (fun _ => TOplkError.kErrorOk) 2 true [5, 6, 7]).1.length - 1)
          false) ∧
    ((writeImageToKernel (fun _ => TOplkError.kErrorOk) 2 true [5, 6, 7]).1.map
        (fun c => c.desc.fLast)
      = List.replicate
          ((writeImageToKernel (fun _ => TOplkError.kErrorOk) 2 true [5, 6, 7]).1.length - 1)
          false ++ [decide (¬ (2 ∣ ([5, 6, 7] : List Nat).length))]) :=
  first_last_flags (fun _ => TOplkError.kErrorOk) 2 [5, 6, 7] (by decide) (by decide)
    (fun i => rfl)

theorem writeLoop_zero_cons (oracle : Nat → TOplkError) (C : Nat) (b : Nat)
    (bs : List Nat) (offset : Nat) (fFirst : Bool) (idx : Nat) :
    writeLoop oracle C 0 (b :: bs) offset fFirst idx = ([], .kErrorOk) := rfl

theorem writeLoop_seq (oracle : Nat → TOplkError) (C : Nat) :
    ∀ (fuel : Nat) (image : List Nat) (offset : Nat) (fFirst : Bool) (idx j : Nat),
      j + 1 < (writeLoop oracle C fuel image offset fFirst idx).1.length →
      oracle (idx + j) = .kErrorOk := by
  intro fuel
  induction fuel with
  | zero =>
    intro image offset fFirst idx j h
    match image with
    | [] =>
      rw [writeLoop_nil] at h
      simp at h
    | b :: bs =>
      rw [writeLoop_zero_cons] at h
      simp at h
  | succ n ih =>
    intro image offset fFirst idx j h
    match image with
    | [] =>
      rw [writeLoop_nil] at h
      simp at h
    | b :: bs =>
      cases ho : oracle idx with
      | kErrorOk =>
        rw [writeLoop_cons_ok oracle C n b bs offset fFirst idx ho] at h
        match j with
        | 0 => simpa using ho
        | j2 + 1 =>
          have hc : ∀ (c : ChunkCall) (cs : List ChunkCall),
              (c :: cs).length = cs.length + 1 := fun _ _ => rfl
          rw [hc] at h
          have h2 : j2 + 1 < (writeLoop oracle C n
              ((b :: bs).drop (segLen C (b :: bs).length))
              (offset + segLen C (b :: bs).length) false (idx + 1)).1.length := by
            omega
          have h3 := ih ((b :: bs).drop (segLen C (b :: bs).length))
            (offset + segLen C (b :: bs).length) false (idx + 1) j2 h2
          have he : idx + (j2 + 1) = idx + 1 + j2 := by omega
          rw [he]
          exact h3
      | kErrorNoResource =>
        rw [writeLoop_cons_fail oracle C n b bs offset fFirst idx (by simp [ho])] at h
        simp at h
      | kErrorOther code =>
        rw [writeLoop_cons_fail oracle C n b bs offset fFirst idx (by simp [ho])] at h
        simp at h

/-- C3: if the chunk-write calls before index `i` succeed and the `i`-th call
(0-based, `i` within the number of segments) returns a non-success status,
`writeImageToKernel` performs exactly `i + 1` chunk-write calls — so no
further segment is sent and none is retried — and returns exactly the status
reported by the failing call; moreover (for any results) a segment is only
ever sent after every earlier call reported success. -/
theorem chunk_write_failure_aborts (oracle : Nat → TOplkError) (C : Nat)
    (image : List Nat) (i : Nat) (hC : 0 < C)
    (hpre : ∀ j, j < i → oracle j = TOplkError.kErrorOk)
    (hfail : oracle i ≠ TOplkError.kErrorOk)
    (hcnt : i < chunkCount C image.length) :
    (writeImageToKernel oracle C true image).1.length = i + 1 ∧
    (writeImageToKernel oracle C true image).2 = oracle i ∧
    (∀ k, k + 1 < (writeImageToKernel oracle C true image).1.length →
      oracle k = TOplkError.kErrorOk) := by
  rw [writeImageToKernel_run oracle C image (by omega)]
  have h := writeLoop_fail_spec oracle C hC i image.length image 0 true 0 (Nat.le_refl _)
    (fun j hj => by simpa using hpre j hj) (by simpa using hfail) hcnt
  refine ⟨by simpa using h.1, by simpa using h.2, fun k hk => ?_⟩
  have h3 := writeLoop_seq oracle C image.length image 0 true 0 k hk
  simpa using h3

/-- Witness for C3: second call (index 1) fails with an opaque error on a
3-byte buffer with chunk size 1: exactly 2 calls are made and the error is
surfaced. -/
theorem chunk_write_failure_aborts_witness :
    ((writeImageToKernel
        (fun j => if j = 0 then TOplkError.kErrorOk else TOplkError.kErrorOther 7)
        1 true [1, 2, 3]).1.length = 2) ∧
    ((writeImageToKernel
        (fun j => if j = 0 then TOplkError.kErrorOk else TOplkError.kErrorOther 7)
        1 true [1, 2, 3]).2 = TOplkError.kErrorOther 7) :=
  ⟨(chunk_write_failure_aborts
      (fun j => if j = 0 then TOplkError.kErrorOk else TOplkError.kErrorOther 7)
      1 [1, 2, 3] 1 (by decide)
      (fun j hj => by
        have hj0 : j = 0 := by omega
        subst hj0
        rfl)
      (by decide) (by decide)).1,
   (chunk_write_failure_aborts
      (fun j => if j = 0 then TOplkError.kErrorOk else TOplkError.kErrorOther 7)
      1 [1, 2, 3] 1 (by decide)
      (fun j hj => by
        have hj0 : j = 0 := by omega
        subst hj0
        rfl)
      (by decide) (by decide)).2.1⟩

/-- C4: when the chunk size reported by the external stack is zero,
`writeImageToKernel` returns `kErrorNoResource` immediately and performs no
chunk-write library call, for every input buffer. -/
theorem zero_chunk_size_rejected (oracle : Nat → TOplkError) (mallocOk : Bool)
    (image : List Nat) :
    writeImageToKernel oracle 0 mallocOk image = ([], TOplkError.kErrorNoResource) := rfl

/-- Parsed options structure `tOptions` (main.c lines 82-89). -/
structure TOptions where
  firmwareFile : String
  fUpdateImage : Bool
  fInvalidateUpdateImage : Bool
  fFactoryReset : Bool
  fUpdateReset : Bool
deriving DecidableEq, Repr

/-- The all-zero `tOptions` produced by `memset(&opts, 0, sizeof(tOptions))`
in `main` (main.c line 127). -/
def initOptions : TOptions := ⟨"", false, false, false, false⟩

/-- Modelled from the spec: one command-line option token as produced by the
repository's `getopt` with option string `"d:efu"` (the `getopt`
implementation included from `<getopt/getopt.h>` is not part of this source
tree; the spec documents the flags `-d <file>`, `-e`, `-f`, `-u` and that
unknown flags print usage and fail).  `optD` carries the `optarg` of `-d`;
`unknown` is any token `getopt` reports as `?`. -/
inductive Arg where
  | optD (file : String)
  | optE
  | optF
  | optU
  | unknown
deriving DecidableEq, Repr

/-- The `while ((opt = getopt(...)) != -1)` switch of `getOptions`
(main.c lines 247-279), processing one option token at a time against the
options structure; `none` is the `return -1` taken on an unknown option. -/
def getOptLoop : List Arg → TOptions → Option TOptions
  | [], o => some o
  | .optD f :: rest, o =>
    getOptLoop rest { o with firmwareFile := f, fUpdateImage := true }
  | .optE :: rest, o =>
    getOptLoop rest { o with fInvalidateUpdateImage := true }
  | .optF :: rest, o =>
    getOptLoop rest { o with fFactoryReset := true, fUpdateReset := false }
  | .optU :: rest, o =>
    getOptLoop rest { o with fFactoryReset := false, fUpdateReset := true }
  | .unknown :: _, _ => none

/-- `getOptions` (main.c lines 234-282): with no arguments (`argc_p == 1`,
modelled as the empty token list) the defaults `-d image.bin -u` are set
first; then the option tokens are processed in order. -/
def getOptions (args : List Arg) (o : TOptions) : Option TOptions :=
  let o1 := if args = [] then
      { o with firmwareFile := "image.bin", fUpdateImage := true, fUpdateReset := true }
    else o
  getOptLoop args o1

/-- Return codes of the one-shot external calls made by `main`:
`system_init`, `oplk_initialize`, `oplk_getStackInfo`, the result of
`invalidateImage`, the result of `updateImage`, and
`oplk_serviceExecFirmwareReconfig`. -/
structure ExtEnv where
  systemInitRet : Int
  oplkInitRet : TOplkError
  stackInfoRet : TOplkError
  invalidateRet : TOplkError
  updateRet : TOplkError
  reconfigRet : TOplkError

/-- Observable outcome of one run of `main`: the process exit code, the
value held by `opts` when `main` returns (when parsing succeeded), and the
arguments passed to the `oplk_serviceExecFirmwareReconfig` calls issued. -/
structure MainResult where
  exitCode : Int
  finalOpts : Option TOptions
  reconfigCalls : List Bool

/-- `main` (main.c lines 121-210).  External call results come from `env`;
every failing step after parsing prints a message, shuts down and falls
through to `return 0`; only a `getOptions` failure yields `return -1`.
`opts` is never written after `getOptions` (no later statement takes its
address or assigns to its fields), so the value at return is the parsed
one. -/
def main (env : ExtEnv) (args : List Arg) : MainResult :=
  match getOptions args initOptions with
  | none => ⟨-1, none, []⟩
  | some opts =>
    if env.systemInitRet ≠ 0 then ⟨0, some opts, []⟩
    else if env.oplkInitRet ≠ .kErrorOk then ⟨0, some opts, []⟩
    else if env.stackInfoRet ≠ .kErrorOk then ⟨0, some opts, []⟩
    else if opts.fInvalidateUpdateImage ∧ env.invalidateRet ≠ .kErrorOk then
      ⟨0, some opts, []⟩
    else if opts.fUpdateImage ∧ env.updateRet ≠ .kErrorOk then ⟨0, some opts, []⟩
    else if opts.fFactoryReset ∨ opts.fUpdateReset then ⟨0, some opts, [opts.fFactoryReset]⟩
    else ⟨0, some opts, []⟩

theorem getOptLoop_none_iff : ∀ (args : List Arg) (o : TOptions),
    getOptLoop args o = none ↔ Arg.unknown ∈ args := by
  intro args
  induction args with
  | nil =>
    intro o
    simp [getOptLoop]
  | cons a rest ih =>
    intro o
    cases a <;> simp [getOptLoop, ih]

theorem getOptions_none_iff (args : List Arg) (o : TOptions) :
    getOptions args o = none ↔ Arg.unknown ∈ args := by
  simp [getOptions, getOptLoop_none_iff]

theorem main_exit_none (env : ExtEnv) (args : List Arg)
    (h : getOptions args initOptions = none) : (main env args).exitCode = -1 := by
  simp only [main, h]

theorem main_exit_some (env : ExtEnv) (args : List Arg) (opts : TOptions)
    (h : getOptions args initOptions = some opts) : (main env args).exitCode = 0 := by
  simp only [main, h]
  split_ifs <;> rfl

/-- C5: `main` returns the failure exit code `-1` exactly when argument
parsing hits an unknown flag; on every other path — including failures of
system init, stack init, stack-info query, invalidation, image update or
reconfiguration — it returns `0`. -/
theorem exit_code_spec (env : ExtEnv) (args : List Arg) :
    ((main env args).exitCode = -1 ↔ Arg.unknown ∈ args) ∧
    ((main env args).exitCode = 0 ↔ Arg.unknown ∉ args) := by
  by_cases hmem : Arg.unknown ∈ args
  · have h := (getOptions_none_iff args initOptions).mpr hmem
    have he := main_exit_none env args h
    rw [he]
    constructor
    · exact ⟨fun _ => hmem, fun _ => rfl⟩
    · constructor
      · intro h0
        exact absurd h0 (by decide)
      · intro hn
        exact absurd hmem hn
  · have h : getOptions args initOptions ≠ none := fun hn =>
      hmem ((getOptions_none_iff args initOptions).mp hn)
    obtain ⟨opts, hopt⟩ := Option.ne_none_iff_exists.mp h
    have he := main_exit_some env args opts hopt.symm
    rw [he]
    constructor
    · constructor
      · intro h0
        exact absurd h0 (by decide)
      · intro hmem2
        exact absurd hmem2 hmem
    · exact ⟨fun _ => hmem, fun _ => rfl⟩

/-- C6: invoked with no command-line arguments, `getOptions` produces the
defaults: firmware file `"image.bin"`, update-image and update-reset flags
set, invalidate and factory-reset flags clear. -/
theorem default_options :
    getOptions [] initOptions = some ⟨"image.bin", true, false, false, true⟩ := rfl

/-- C7: the options structure is written only during parsing: whenever
`getOptions` succeeds, the value `opts` holds when `main` returns — after
initialization, invalidation, update, reconfiguration and teardown — is
exactly the parsed value, whatever the external calls returned. -/
theorem opts_unchanged (env : ExtEnv) (args : List Arg) (opts : TOptions)
    (h : getOptions args initOptions = some opts) :
    (main env args).finalOpts = some opts := by
  simp only [main, h]
  split_ifs <;> rfl

/-- Witness for C7: the defaults survive a run in which every external call
succeeds. -/
theorem opts_unchanged_witness :
    (main ⟨0, TOplkError.kErrorOk, TOplkError.kErrorOk, TOplkError.kErrorOk,
        TOplkError.kErrorOk, TOplkError.kErrorOk⟩ []).finalOpts
      = some ⟨"image.bin", true, false, false, true⟩ :=
  opts_unchanged ⟨0, TOplkError.kErrorOk, TOplkError.kErrorOk, TOplkError.kErrorOk,
      TOplkError.kErrorOk, TOplkError.kErrorOk⟩ []
    ⟨"image.bin", true, false, false, true⟩ rfl

/-- The last `-f`/`-u` among the option tokens: `some true` if the last such
token is `-f`, `some false` if it is `-u`, `none` if neither occurs. -/
def lastFU : List Arg → Option Bool
  | [] => none
  | a :: rest =>
    match lastFU rest with
    | some b => some b
    | none =>
      match a with
      | .optF => some true
      | .optU => some false
      | _ => none

theorem lastFU_cons (a : Arg) (rest : List Arg) :
    lastFU (a :: rest)
      = match lastFU rest with
        | some b => some b
        | none =>
          match a with
          | .optF => some true
          | .optU => some false
          | _ => none := rfl

theorem getOptLoop_FU : ∀ (args : List Arg) (o opts : TOptions),
    getOptLoop args o = some opts →
    (lastFU args = none →
      opts.fFactoryReset = o.fFactoryReset ∧ opts.fUpdateReset = o.fUpdateReset) ∧
    (∀ b, lastFU args = some b →
      opts.fFactoryReset = b ∧ opts.fUpdateReset = !b) := by
  intro args
  induction args with
  | nil =>
    intro o opts h
    simp [getOptLoop] at h
    subst h
    constructor
    · intro _
      exact ⟨rfl, rfl⟩
    · intro b hb
      simp [lastFU] at hb
  | cons a rest ih =>
    intro o opts h
    cases a with
    | optD f =>
      obtain ⟨hnone, hsome⟩ := ih _ opts h
      rw [lastFU_cons]
      cases hrest : lastFU rest with
      | none =>
        refine ⟨fun _ => hnone hrest, fun b hb => ?_⟩
        simp [hrest] at hb
      | some b =>
        refine ⟨fun hc => ?_, fun b2 hb2 => ?_⟩
        · simp [hrest] at hc
        · simp [hrest] at hb2
          subst hb2
          exact hsome b hrest
    | optE =>
      obtain ⟨hnone, hsome⟩ := ih _ opts h
      rw [lastFU_cons]
      cases hrest : lastFU rest with
      | none =>
        refine ⟨fun _ => hnone hrest, fun b hb => ?_⟩
        simp [hrest] at hb
      | some b =>
        refine ⟨fun hc => ?_, fun b2 hb2 => ?_⟩
        · simp [hrest] at hc
        · simp [hrest] at hb2
          subst hb2
          exact hsome b hrest
    | optF =>
      obtain ⟨hnone, hsome⟩ := ih _ opts h
      rw [lastFU_cons]
      cases hrest : lastFU rest with
      | none =>
        refine ⟨fun hc => ?_, fun b hb => ?_⟩
        · simp [hrest] at hc
        · simp only [hrest] at hb
          have hb2 : b = true := by
            simpa using hb.symm
          subst hb2
          exact hnone hrest
      | some b =>
        refine ⟨fun hc => ?_, fun b2 hb2 => ?_⟩
        · simp [hrest] at hc
        · simp [hrest] at hb2
          subst hb2
          exact hsome b hrest
    | optU =>
      obtain ⟨hnone, hsome⟩ := ih _ opts h
      rw [lastFU_cons]
      cases hrest : lastFU rest with
      | none =>
        refine ⟨fun hc => ?_, fun b hb => ?_⟩
        · simp [hrest] at hc
        · simp only [hrest] at hb
          have hb2 : b = false := by
            simpa using hb.symm
          subst hb2
          exact hnone hrest
      | some b =>
        refine ⟨fun hc => ?_, fun b2 hb2 => ?_⟩
        · simp [hrest] at hc
        · simp [hrest] at hb2
          subst hb2
          exact hsome b hrest
    | unknown =>
      simp [getOptLoop] at h

/-- C9: for every accepted command line the factory-reset and update-reset
flags are never both set; when `-f`/`-u` occur, whichever appears last
determines which one is set; and `main` issues at most one reconfiguration
call, whose argument is the factory-reset flag. -/
theorem reset_flags_exclusive (env : ExtEnv) (args : List Arg) (opts : TOptions)
    (h : getOptions args initOptions = some opts) :
    (¬ (opts.fFactoryReset = true ∧ opts.fUpdateReset = true)) ∧
    (∀ b, lastFU args = some b →
      opts.fFactoryReset = b ∧ opts.fUpdateReset = !b) ∧
    ((main env args).reconfigCalls = [] ∨
      (main env args).reconfigCalls = [opts.fFactoryReset]) := by
  have hmain : (main env args).reconfigCalls = [] ∨
      (main env args).reconfigCalls = [opts.fFactoryReset] := by
    simp only [main, h]
    split_ifs <;> simp
  by_cases hargs : args = []
  · subst hargs
    have h2 : opts = ⟨"image.bin", true, false, false, true⟩ := by
      have h3 : getOptions [] initOptions
          = some ⟨"image.bin", true, false, false, true⟩ := rfl
      rw [h3] at h
      exact (Option.some.inj h).symm
    subst h2
    refine ⟨by simp, fun b hb => ?_, hmain⟩
    simp [lastFU] at hb
  · have ho1 : getOptLoop args initOptions = some opts := by
      unfold getOptions at h
      simpa [if_neg hargs] using h
    obtain ⟨hnone, hsome⟩ := getOptLoop_FU args initOptions opts ho1
    refine ⟨?_, hsome, hmain⟩
    cases hl : lastFU args with
    | none =>
      obtain ⟨hf, _⟩ := hnone hl
      rintro ⟨h1, _⟩
      rw [hf] at h1
      exact absurd h1 (by decide)
    | some b =>
      obtain ⟨hf, hu⟩ := hsome b hl
      rintro ⟨h1, h2⟩
      rw [hf] at h1
      rw [hu] at h2
      subst h1
      exact absurd h2 (by decide)

/-- Witness for C9: with `-f -u` the parsed options have only the
update-reset flag set and the single reconfiguration call carries the
(cleared) factory flag. -/
theorem reset_flags_exclusive_witness :
    (main ⟨0, TOplkError.kErrorOk, TOplkError.kErrorOk, TOplkError.kErrorOk,
        TOplkError.kErrorOk, TOplkError.kErrorOk⟩ [Arg.optF, Arg.optU]).reconfigCalls = [] ∨
    (main ⟨0, TOplkError.kErrorOk, TOplkError.kErrorOk, TOplkError.kErrorOk,
        TOplkError.kErrorOk, TOplkError.kErrorOk⟩ [Arg.optF, Arg.optU]).reconfigCalls
      = [(⟨"", false, false, false, true⟩ : TOptions).fFactoryReset] :=
  (reset_flags_exclusive ⟨0, TOplkError.kErrorOk, TOplkError.kErrorOk, TOplkError.kErrorOk,
      TOplkError.kErrorOk, TOplkError.kErrorOk⟩ [Arg.optF, Arg.optU]
    ⟨"", false, false, false, true⟩ rfl).2.2

/-- Heap and file resource events of `updateImage` and `writeImageToKernel`:
the successful `fopen`/`fclose` of the firmware file, the `malloc`/`free` of
the whole-file buffer `pImage`, and the `malloc`/`free` of the chunk buffer
`pChunk`. -/
inductive REvent where
  | openFile
  | closeFile
  | allocImage
  | freeImage
  | allocChunk
  | freeChunk
deriving DecidableEq, Repr

/-- Resource events of `writeImageToKernel` (main.c lines 381-441): the
chunk buffer is its only resource; it is allocated after the chunk-size
check and freed at the `Exit` label on every path that allocated it (the
loop body performs no allocation or release, so the events do not depend on
the image or the call results). -/
def writeImageEvents (chunkSize : Nat) (mallocOk : Bool) : List REvent :=
  if chunkSize = 0 then []
  else if mallocOk = false then []
  else [.allocChunk, .freeChunk]

/-- Externals of `updateImage`: whether `fopen` succeeds, the file content
(`ftell` reports its length), whether the `malloc(fileSize)` succeeds,
whether `fread` returns the full size, and whether the `pImage` local —
read back at `Exit` also on the empty-file path, where it was never
assigned — happens to hold a non-NULL garbage value. -/
structure FileEnv where
  openOk : Bool
  content : List Nat
  mallocImageOk : Bool
  readOk : Bool
  junkImageNonNull : Bool

/-- `updateImage` (main.c lines 316-367) combined with the
`writeImageToKernel` call it makes: the `tOplkError` result, the chunk-write
calls performed, and the resource events in order.  On the empty-file path
the `if (pImage != NULL) free(pImage)` at `Exit` reads the uninitialized
`pImage` local: when its garbage value is non-NULL the code frees a pointer
it never allocated, modelled as a bare `freeImage` event. -/
def updateImage (env : FileEnv) (oracle : Nat → TOplkError) (chunkSize : Nat)
    (mallocChunkOk : Bool) : TOplkError × List ChunkCall × List REvent :=
  if env.openOk = false then (.kErrorNoResource, [], [])
  else if env.content.length = 0 then
    (.kErrorNoResource, [],
      [REvent.openFile]
        ++ (if env.junkImageNonNull then [REvent.freeImage] else [])
        ++ [REvent.closeFile])
  else if env.mallocImageOk = false then
    (.kErrorNoResource, [], [REvent.openFile, REvent.closeFile])
  else if env.readOk = false then
    (.kErrorNoResource, [],
      [REvent.openFile, REvent.allocImage, REvent.freeImage, REvent.closeFile])
  else
    ((writeImageToKernel oracle chunkSize mallocChunkOk env.content).2,
     (writeImageToKernel oracle chunkSize mallocChunkOk env.content).1,
     [REvent.openFile, REvent.allocImage]
       ++ writeImageEvents chunkSize mallocChunkOk
       ++ [REvent.freeImage, REvent.closeFile])

/-- C8: on every exit path of `updateImage` (and of the
`writeImageToKernel` call inside it) each resource acquired by the call is
released: the opened file handle is closed, the whole-file buffer is freed,
and the chunk buffer is freed — on the success path and on every early
error exit (file unreadable, empty file, allocation failure, chunk-write
failure).  (The free count of the whole-file buffer can exceed its
allocation count: on the empty-file exit the code frees the uninitialized
`pImage` when its garbage value is non-NULL.) -/
theorem resources_released (env : FileEnv) (oracle : Nat → TOplkError)
    (chunkSize : Nat) (mallocChunkOk : Bool) :
    (((updateImage env oracle chunkSize mallocChunkOk).2.2).count REvent.openFile
      = ((updateImage env oracle chunkSize mallocChunkOk).2.2).count REvent.closeFile) ∧
    (((updateImage env oracle chunkSize mallocChunkOk).2.2).count REvent.allocImage
      ≤ ((updateImage env oracle chunkSize mallocChunkOk).2.2).count REvent.freeImage) ∧
    (((updateImage env oracle chunkSize mallocChunkOk).2.2).count REvent.allocChunk
      = ((updateImage env oracle chunkSize mallocChunkOk).2.2).count REvent.freeChunk) ∧
    ((writeImageEvents chunkSize mallocChunkOk).count REvent.allocChunk
      = (writeImageEvents chunkSize mallocChunkOk).count REvent.freeChunk) := by
  unfold updateImage writeImageEvents
  split_ifs <;> simp [List.count_cons, List.count_append]

/-- C10: an openable but empty firmware file makes `updateImage` return
`kErrorNoResource` with no chunk-write call performed, while
`invalidateImage` always hands `writeImageToKernel` a buffer of exactly
`FIRMWARE_HEADER_SIZE = 32` bytes, each `0xFF`. -/
theorem empty_file_vs_invalidate (env : FileEnv) (oracle : Nat → TOplkError)
    (chunkSize : Nat) (mallocChunkOk : Bool)
    (hopen : env.openOk = true) (hempty : env.content = []) :
    ((updateImage env oracle chunkSize mallocChunkOk).1 = TOplkError.kErrorNoResource ∧
     (updateImage env oracle chunkSize mallocChunkOk).2.1 = []) ∧
    invalidateImage oracle chunkSize mallocChunkOk
      = writeImageToKernel oracle chunkSize mallocChunkOk (List.replicate 32 0xFF) := by
  constructor
  · unfold updateImage
    rw [hopen, hempty]
    simp
  · rfl

/-- Witness for C10: an empty file with chunk size 4 and all externals
succeeding. -/
theorem empty_file_vs_invalidate_witness :
    ((updateImage ⟨true, [], true, true, true⟩ (fun _ => TOplkError.kErrorOk) 4 true).1
        = TOplkError.kErrorNoResource ∧
     (updateImage ⟨true, [], true, true, true⟩ (fun _ => TOplkError.kErrorOk) 4 true).2.1
        = []) ∧
    invalidateImage (fun _ => TOplkError.kErrorOk) 4 true
      = writeImageToKernel (fun _ => TOplkError.kErrorOk) 4 true (List.replicate 32 0xFF) :=
  empty_file_vs_invalidate ⟨true, [], true, true, true⟩ (fun _ => TOplkError.kErrorOk) 4 true
    rfl rfl

end FwUpdate
